import Mathlib

/-!
# Verification of the SQLite WAL reader (`dissect/database/sqlite3/wal.py`)

A shallow embedding of the WAL parsing module.  Byte images are `List Nat`
(each entry one byte), machine 32-bit arithmetic is `Nat` with explicit
`% 2 ^ 32`, and fallible code (Python exceptions) returns `Option` / `Except`.

The struct layouts (`c_sqlite3.wal_header`, `c_sqlite3.wal_frame`) and the
exception module are not part of the sources; they are modelled from the
specification and marked as such in their doc comments.
-/

namespace WalPy

/-- A byte order marker: Python struct format `"<"` or `">"`.
In `wal.py`, `checksum_endian` holds one of these two strings. -/
inductive Endian where
  | le : Endian
  | be : Endian
deriving DecidableEq, Repr

/-- Big-endian 32-bit word from four bytes (most significant first). -/
def beU32 (a b c d : Nat) : Nat :=
  ((a * 256 + b) * 256 + c) * 256 + d

/-- One 32-bit word from four consecutive bytes in the order given by `e`,
as `struct.unpack` does for format character `I`. -/
def wordOfBytes (e : Endian) (a b c d : Nat) : Nat :=
  match e with
  | .be => beU32 a b c d
  | .le => beU32 d c b a

/-- `struct.unpack(f"{endian}{num_ints}I", buf)`: split a byte string into
32-bit words.  Returns `none` when the length is not a multiple of 4
(`struct.error` in Python). -/
def u32sOfBytes (e : Endian) : List Nat → Option (List Nat)
  | [] => some []
  | a :: b :: c :: d :: rest => (u32sOfBytes e rest).map (wordOfBytes e a b c d :: ·)
  | _ => none

/-- The loop body of `Frame.calculate_checksum`: `for int_num in
range(0, num_ints, 2)` reads `arr[int_num]` and `arr[int_num + 1]`.
When the word list has odd length the final round indexes one past the
end (`IndexError` in Python), modelled by `none`. -/
def checksumRounds : List Nat → Nat → Nat → Option (Nat × Nat)
  | [], s0, s1 => some (s0, s1)
  | [_], _, _ => none
  | a :: b :: rest, s0, s1 =>
      let s0' := (s0 + (a + s1)) % 2 ^ 32
      let s1' := (s1 + (b + s0')) % 2 ^ 32
      checksumRounds rest s0' s1'

/-- `Frame.calculate_checksum(buf, seed=(0, 0), endian=">")` from `wal.py`
lines 220-234, as a function of its data arguments: unpack `buf` into
`len(buf) // 4` unsigned 32-bit integers in byte order `endian`, then run the
two-words-per-round accumulation starting from `seed`.  `none` models the
Python exceptions (`struct.error` for a length not divisible by 4,
`IndexError` for an odd word count). -/
def calculate_checksum (e : Endian) (buf : List Nat) (seed : Nat × Nat) :
    Option (Nat × Nat) :=
  match u32sOfBytes e buf with
  | none => none
  | some arr => checksumRounds arr seed.1 seed.2

/-- Modelled from the spec: the checksum iteration as the spec states it —
"for `i = 0, 2, 4, …`: `s0 = (s0 + arr[i] + s1) mod 2^32`, then
`s1 = (s1 + arr[i+1] + s0) mod 2^32`" — as a total function on the word
list, consuming two words per step. -/
def specPairIter : List Nat → Nat × Nat → Nat × Nat
  | a :: b :: rest, s =>
      let s0' := (s.1 + a + s.2) % 2 ^ 32
      let s1' := (s.2 + b + s0') % 2 ^ 32
      specPairIter rest (s0', s1')
  | _, s => s

theorem getD_cons4 (a b c d : Nat) (l : List Nat) (n : Nat) :
    (a :: b :: c :: d :: l).getD (n + 4) 0 = l.getD n 0 := by
  have h : n + 4 = n + 1 + 1 + 1 + 1 := by ring
  rw [h]
  simp [List.getD_cons_succ]

theorem u32sOfBytes_length_mod (e : Endian) :
    ∀ buf : List Nat, buf.length % 4 = 0 →
      ∃ arr, u32sOfBytes e buf = some arr ∧ arr.length = buf.length / 4 ∧
        ∀ j, j < arr.length →
          arr.getD j 0 = wordOfBytes e (buf.getD (4 * j) 0) (buf.getD (4 * j + 1) 0)
            (buf.getD (4 * j + 2) 0) (buf.getD (4 * j + 3) 0)
  | [], _ => ⟨[], rfl, rfl, by intro j hj; simp at hj⟩
  | [_], h => by simp [List.length] at h
  | [_, _], h => by simp [List.length] at h
  | [_, _, _], h => by simp [List.length] at h
  | a :: b :: c :: d :: rest, h => by
      have hrest : rest.length % 4 = 0 := by
        have hl : (a :: b :: c :: d :: rest).length = rest.length + 4 := by simp
        omega
      obtain ⟨arr, harr, hlen, hpt⟩ := u32sOfBytes_length_mod e rest hrest
      refine ⟨wordOfBytes e a b c d :: arr, ?_, ?_, ?_⟩
      · simp [u32sOfBytes, harr]
      · simp [List.length, hlen]; omega
      · intro j hj
        cases j with
        | zero => simp
        | succ j' =>
            have hj' : j' < arr.length := by simpa using hj
            have h0 : 4 * (j' + 1) = 4 * j' + 4 := by ring
            rw [List.getD_cons_succ, h0]
            have h1 : 4 * j' + 4 + 1 = 4 * j' + 1 + 4 := by ring
            have h2 : 4 * j' + 4 + 2 = 4 * j' + 2 + 4 := by ring
            have h3 : 4 * j' + 4 + 3 = 4 * j' + 3 + 4 := by ring
            rw [h1, h2, h3, getD_cons4, getD_cons4, getD_cons4, getD_cons4]
            exact hpt j' hj'

theorem checksumRounds_even :
    ∀ (arr : List Nat), arr.length % 2 = 0 → ∀ s0 s1,
      checksumRounds arr s0 s1 = some (specPairIter arr (s0, s1))
  | [], _, s0, s1 => rfl
  | [_], h, _, _ => by simp [List.length] at h
  | a :: b :: rest, h, s0, s1 => by
      have hrest : rest.length % 2 = 0 := by
        have : (a :: b :: rest).length = rest.length + 2 := by simp [List.length]
        omega
      show checksumRounds rest _ _ = _
      rw [checksumRounds_even rest hrest]
      simp [specPairIter, Nat.add_assoc]

/-- **C2** (amended).  For every buffer whose length is divisible by 8 and
every seed, `calculate_checksum` unpacks the buffer into `L / 4` unsigned
32-bit words in the requested byte order (word `j` is built from bytes
`4j..4j+3`) and returns the pair produced by the spec's two-words-per-round
iteration.  (For a length divisible by 4 but not by 8 the word count is odd
and the Python code raises `IndexError` instead of returning; see the
counterexample.) -/
theorem calculate_checksum_spec (e : Endian) (buf : List Nat) (seed : Nat × Nat)
    (h : buf.length % 8 = 0) :
    ∃ arr, u32sOfBytes e buf = some arr ∧ arr.length = buf.length / 4 ∧
      (∀ j, j < arr.length →
        arr.getD j 0 = wordOfBytes e (buf.getD (4 * j) 0) (buf.getD (4 * j + 1) 0)
          (buf.getD (4 * j + 2) 0) (buf.getD (4 * j + 3) 0)) ∧
      calculate_checksum e buf seed = some (specPairIter arr seed) := by
  have h4 : buf.length % 4 = 0 := by omega
  obtain ⟨arr, harr, hlen, hpt⟩ := u32sOfBytes_length_mod e buf h4
  refine ⟨arr, harr, hlen, hpt, ?_⟩
  have heven : arr.length % 2 = 0 := by
    rw [hlen]; omega
  rw [calculate_checksum, harr]
  exact checksumRounds_even arr heven seed.1 seed.2

/-- **C2** witness: the theorem applied at the concrete 8-byte buffer
`[1, 2, 3, 4, 5, 6, 7, 8]` with seed `(0, 0)` and big-endian order. -/
theorem calculate_checksum_spec_witness :
    ∃ arr, u32sOfBytes .be [1, 2, 3, 4, 5, 6, 7, 8] = some arr ∧
      arr.length = [1, 2, 3, 4, 5, 6, 7, 8].length / 4 ∧
      (∀ j, j < arr.length →
        arr.getD j 0 = wordOfBytes .be ([1, 2, 3, 4, 5, 6, 7, 8].getD (4 * j) 0)
          ([1, 2, 3, 4, 5, 6, 7, 8].getD (4 * j + 1) 0)
          ([1, 2, 3, 4, 5, 6, 7, 8].getD (4 * j + 2) 0)
          ([1, 2, 3, 4, 5, 6, 7, 8].getD (4 * j + 3) 0)) ∧
      calculate_checksum .be [1, 2, 3, 4, 5, 6, 7, 8] (0, 0) =
        some (specPairIter arr (0, 0)) :=
  calculate_checksum_spec .be [1, 2, 3, 4, 5, 6, 7, 8] (0, 0) (by decide)

/-- **C2** counterexample.  The claim quantifies over every buffer of length
divisible by 4, but on a 4-byte buffer the word count is 1 and the loop reads
`arr[1]` out of range (`IndexError`): the code does not return the iterated
pair (`some (0, 0)` here) — it raises. -/
theorem calculate_checksum_len4_fails :
    (List.replicate 4 0).length % 4 = 0 ∧
      calculate_checksum .be (List.replicate 4 0) (0, 0) = none ∧
      some (specPairIter [0] (0, 0)) ≠ (none : Option (Nat × Nat)) := by
  refine ⟨by decide, by decide, by decide⟩

theorem u32sOfBytes_zero (e : Endian) : ∀ m : Nat,
    u32sOfBytes e (List.replicate (4 * m) 0) = some (List.replicate m 0)
  | 0 => by simp [u32sOfBytes]
  | m + 1 => by
      have h : 4 * (m + 1) = 4 * m + 1 + 1 + 1 + 1 := by ring
      rw [h, List.replicate_succ, List.replicate_succ, List.replicate_succ,
        List.replicate_succ]
      cases e <;>
        simp [u32sOfBytes, u32sOfBytes_zero _ m, wordOfBytes, beU32, List.replicate_succ]

theorem checksumRounds_zero : ∀ m : Nat,
    checksumRounds (List.replicate (2 * m) 0) 0 0 = some (0, 0)
  | 0 => rfl
  | m + 1 => by
      have h : 2 * (m + 1) = 2 * m + 1 + 1 := by ring
      rw [h, List.replicate_succ, List.replicate_succ]
      simp only [checksumRounds]
      norm_num
      exact checksumRounds_zero m

/-- **C8** (amended).  Feeding `calculate_checksum` an all-zero buffer of
length divisible by 8 from seed `(0, 0)` returns `(0, 0)`, in either byte
order; in particular, after seeding with the first 24 bytes of an all-zero
WAL header, checksumming further all-zero input leaves `(s0, s1) = (0, 0)`.
(For a length divisible by 4 but not by 8 the code raises `IndexError`
instead of returning; see the counterexample.) -/
theorem calculate_checksum_zero_spec (e : Endian) (n : Nat) :
    calculate_checksum e (List.replicate (8 * n) 0) (0, 0) = some (0, 0) ∧
      (calculate_checksum e (List.replicate 24 0) (0, 0)).bind
        (fun s => calculate_checksum e (List.replicate (8 * n) 0) s) = some (0, 0) := by
  have hz : ∀ k : Nat,
      calculate_checksum e (List.replicate (8 * k) 0) (0, 0) = some (0, 0) := by
    intro k
    have h84 : 8 * k = 4 * (2 * k) := by ring
    rw [calculate_checksum, h84, u32sOfBytes_zero]
    exact checksumRounds_zero k
  refine ⟨hz n, ?_⟩
  have h24 : (List.replicate 24 0 : List Nat) = List.replicate (8 * 3) 0 := by norm_num
  rw [h24, hz 3]
  simpa using hz n

/-- **C8** counterexample.  A 12-byte all-zero buffer has length divisible
by 4, but it unpacks to 3 words, so the final round reads `arr[3]` out of
range (`IndexError`): `calculate_checksum` raises instead of returning
`(0, 0)`. -/
theorem calculate_checksum_zero12_fails :
    (List.replicate 12 0).length % 4 = 0 ∧
      calculate_checksum .be (List.replicate 12 0) (0, 0) = none := by
  exact ⟨by decide, by decide⟩

/-- Modelled from the spec: the 24-byte WAL frame header parsed by
`c_sqlite3.wal_frame` (not in the sources) — six unsigned 32-bit fields
`(page_number, page_count, salt1, salt2, checksum1, checksum2)`, always
stored big-endian on disk. -/
structure FrameHeader where
  page_number : Nat
  page_count : Nat
  salt1 : Nat
  salt2 : Nat
  checksum1 : Nat
  checksum2 : Nat
deriving DecidableEq, Repr

/-- `Frame` from `wal.py`: its byte offset in the WAL image together with the
header parsed at that offset (`Frame.__init__` reads only the 24-byte header;
page data is fetched lazily by the `data` property). -/
structure Frame where
  offset : Nat
  header : FrameHeader
deriving DecidableEq, Repr

/-- `Commit` (and its base `_FrameCollection`) from `wal.py`: a list of frames
that were committed together. -/
structure Commit where
  frames : List Frame
deriving DecidableEq, Repr

/-! ### Python `dict` as an association list

`WAL.checkpoints` builds `checkpoints_map: dict[int, Checkpoint]` and
`_FrameCollection.page_map` builds `dict[int, Frame]`.  A CPython dict with
`Nat` keys is an association list with pairwise-distinct keys where assignment
replaces in place at an existing key and appends otherwise. -/

/-- `d[k] = v` on a Python dict. -/
def dictInsert {α : Type} (m : List (Nat × α)) (k : Nat) (v : α) : List (Nat × α) :=
  if m.any (fun p => p.1 = k) then m.map (fun p => if p.1 = k then (k, v) else p)
  else m ++ [(k, v)]

/-- `d.get(k)` / `d[k]` on a Python dict: the value at the first (hence, with
distinct keys, only) binding of `k`, or `none` (`KeyError`). -/
def dictLookup {α : Type} (k : Nat) : List (Nat × α) → Option α
  | [] => none
  | p :: rest => if p.1 = k then some p.2 else dictLookup k rest

theorem dictLookup_append {α : Type} (k : Nat) :
    ∀ m₁ m₂ : List (Nat × α),
      dictLookup k (m₁ ++ m₂) = (dictLookup k m₁).or (dictLookup k m₂)
  | [], _ => by simp [dictLookup]
  | p :: rest, m₂ => by
      by_cases h : p.1 = k
      · simp [dictLookup, h]
      · simp [dictLookup, h, dictLookup_append k rest m₂]

theorem dictLookup_map_replace {α : Type} (k k' : Nat) (v : α) (h : k' ≠ k) :
    ∀ m : List (Nat × α),
      dictLookup k' (m.map (fun p => if p.1 = k then (k, v) else p)) = dictLookup k' m
  | [] => rfl
  | p :: rest => by
      by_cases hp : p.1 = k
      · have hk : ¬ (k = k') := fun hkk => h hkk.symm
        simp [dictLookup, hp, hk, dictLookup_map_replace k k' v h rest]
      · by_cases hp' : p.1 = k'
        · simp [dictLookup, hp, hp', h]
        · simp [dictLookup, hp, hp', dictLookup_map_replace k k' v h rest]

theorem dictLookup_map_replace_self {α : Type} (k : Nat) (v : α) :
    ∀ m : List (Nat × α), m.any (fun p => p.1 = k) = true →
      dictLookup k (m.map (fun p => if p.1 = k then (k, v) else p)) = some v
  | [], h => by simp at h
  | p :: rest, h => by
      by_cases hp : p.1 = k
      · simp [dictLookup, hp]
      · have hrest : rest.any (fun p => p.1 = k) = true := by
          simp only [List.any_cons, Bool.or_eq_true, decide_eq_true_eq] at h
          rcases h with h | h
          · exact absurd h hp
          · simpa using h
        simp [dictLookup, hp, dictLookup_map_replace_self k v rest hrest]

theorem dictLookup_not_mem {α : Type} (k : Nat) :
    ∀ m : List (Nat × α), m.any (fun p => p.1 = k) = false → dictLookup k m = none
  | [], _ => rfl
  | p :: rest, h => by
      simp only [List.any_cons, Bool.or_eq_false_iff, decide_eq_false_iff_not] at h
      simp [dictLookup, h.1, dictLookup_not_mem k rest (by simpa using h.2)]

/-- Lookup after assignment: the assigned key now maps to the new value;
every other key is untouched. -/
theorem dictLookup_dictInsert {α : Type} (m : List (Nat × α)) (k k' : Nat) (v : α) :
    dictLookup k' (dictInsert m k v) = if k' = k then some v else dictLookup k' m := by
  unfold dictInsert
  by_cases hany : m.any (fun p => p.1 = k) = true
  · rw [if_pos hany]
    by_cases hk : k' = k
    · rw [if_pos hk, hk, dictLookup_map_replace_self k v m hany]
    · rw [if_neg hk, dictLookup_map_replace k k' v hk m]
  · rw [if_neg hany, dictLookup_append]
    have hfalse : m.any (fun p => p.1 = k) = false :=
      Bool.eq_false_iff.mpr hany
    by_cases hk : k' = k
    · rw [if_pos hk, hk, dictLookup_not_mem k m hfalse]
      simp [dictLookup]
    · rw [if_neg hk]
      have h1 : dictLookup k' [(k, v)] = none := by
        have hne : ¬ (k = k') := fun hh => hk hh.symm
        simp [dictLookup, hne]
      rw [h1, Option.or_none]

theorem dictInsert_keys {α : Type} (m : List (Nat × α)) (k : Nat) (v : α) :
    (dictInsert m k v).map Prod.fst =
      if k ∈ m.map Prod.fst then m.map Prod.fst else m.map Prod.fst ++ [k] := by
  unfold dictInsert
  have hmem : m.any (fun p => p.1 = k) = true ↔ k ∈ m.map Prod.fst := by
    rw [List.any_eq_true]
    constructor
    · rintro ⟨p, hp, he⟩
      exact List.mem_map.mpr ⟨p, hp, by simpa using he⟩
    · intro h
      obtain ⟨p, hp, he⟩ := List.mem_map.mp h
      exact ⟨p, hp, by simpa using he⟩
  by_cases hany : m.any (fun p => p.1 = k) = true
  · rw [if_pos hany, if_pos (hmem.mp hany)]
    rw [List.map_map]
    apply List.map_congr_left
    intro p _
    by_cases hp : p.1 = k
    · simp [Function.comp, hp]
    · simp [Function.comp, hp]
  · have hnot : k ∉ m.map Prod.fst := fun hc => hany (hmem.mpr hc)
    rw [if_neg hany, if_neg hnot]
    simp

theorem dictInsert_keys_nodup {α : Type} (m : List (Nat × α)) (k : Nat) (v : α)
    (h : (m.map Prod.fst).Nodup) : ((dictInsert m k v).map Prod.fst).Nodup := by
  rw [dictInsert_keys]
  by_cases hk : k ∈ m.map Prod.fst
  · rwa [if_pos hk]
  · rw [if_neg hk]
    rw [List.nodup_append]
    refine ⟨h, List.nodup_singleton k, ?_⟩
    intro a ha hb
    simp only [List.mem_singleton] at hb
    subst hb
    exact hk ha

theorem dictLookup_isSome {α : Type} (k : Nat) :
    ∀ m : List (Nat × α), (dictLookup k m).isSome = true ↔ k ∈ m.map Prod.fst
  | [] => by simp [dictLookup]
  | p :: rest => by
      by_cases hp : p.1 = k
      · simp [dictLookup, hp]
      · have hne : k ≠ p.1 := fun h => hp h.symm
        rw [List.map_cons]
        simp only [dictLookup, if_neg hp, List.mem_cons]
        rw [dictLookup_isSome k rest]
        constructor
        · exact fun h => Or.inr h
        · rintro (h | h)
          · exact absurd h hne
          · exact h

/-- The common shape of the two dict-building loops in `wal.py`: walk a list
and store each element under its key, skipping elements without one. -/
def dictFoldBy {α : Type} (key : α → Option Nat) (m : List (Nat × α)) :
    List α → List (Nat × α)
  | [] => m
  | x :: rest =>
      match key x with
      | none => dictFoldBy key m rest
      | some k => dictFoldBy key (dictInsert m k x) rest

/-- The last element of `xs` whose key is `v`: with "later elements
overwrite", this is the binding such a fold leaves at key `v`. -/
def lastWithKey {α : Type} (key : α → Option Nat) (v : Nat) (xs : List α) : Option α :=
  (xs.filter (fun x => key x = some v)).getLast?

theorem getLast?_cons_or {α : Type} (x : α) (l : List α) :
    (x :: l).getLast? = l.getLast?.or (some x) := by
  cases l with
  | nil => rfl
  | cons y t =>
      rw [List.getLast?_cons_cons]
      have h : (y :: t).getLast?.isSome = true := by
        rw [List.getLast?_isSome]; simp
      obtain ⟨a, ha⟩ := Option.isSome_iff_exists.mp h
      rw [ha]; rfl

theorem dictLookup_dictFoldBy {α : Type} (key : α → Option Nat) (v : Nat) :
    ∀ (xs : List α) (m : List (Nat × α)),
      dictLookup v (dictFoldBy key m xs) = (lastWithKey key v xs).or (dictLookup v m)
  | [], m => by simp [dictFoldBy, lastWithKey]
  | x :: rest, m => by
      cases hk : key x with
      | none =>
          have hne : ¬ (key x = some v) := by simp [hk]
          simp only [dictFoldBy, hk]
          rw [dictLookup_dictFoldBy key v rest m]
          have hfe : (x :: rest).filter (fun x => key x = some v) =
              rest.filter (fun x => key x = some v) := by
            simp [List.filter_cons, hne]
          simp only [lastWithKey, hfe]
      | some k =>
          simp only [dictFoldBy, hk]
          rw [dictLookup_dictFoldBy key v rest (dictInsert m k x), dictLookup_dictInsert]
          by_cases hv : v = k
          · have hpx : key x = some v := by rw [hk, hv]
            have hfe : (x :: rest).filter (fun x => key x = some v) =
                x :: rest.filter (fun x => key x = some v) := by
              simp [List.filter_cons, hpx]
            rw [if_pos hv]
            simp only [lastWithKey, hfe, getLast?_cons_or, Option.or_assoc, Option.or_some]
          · have hpx : ¬ (key x = some v) := by
              rw [hk]
              intro hc
              exact hv (Option.some.inj hc).symm
            have hfe : (x :: rest).filter (fun x => key x = some v) =
                rest.filter (fun x => key x = some v) := by
              simp [List.filter_cons, hpx]
            rw [if_neg hv]
            simp only [lastWithKey, hfe]

theorem mem_keys_dictInsert {α : Type} (m : List (Nat × α)) (k v : Nat) (x : α) :
    v ∈ (dictInsert m k x).map Prod.fst ↔ v ∈ m.map Prod.fst ∨ v = k := by
  rw [dictInsert_keys]
  by_cases hk : k ∈ m.map Prod.fst
  · rw [if_pos hk]
    constructor
    · exact Or.inl
    · rintro (h | h)
      · exact h
      · exact h ▸ hk
  · rw [if_neg hk]
    simp [List.mem_append]

theorem mem_keys_dictFoldBy {α : Type} (key : α → Option Nat) (v : Nat) :
    ∀ (xs : List α) (m : List (Nat × α)),
      v ∈ (dictFoldBy key m xs).map Prod.fst ↔
        v ∈ m.map Prod.fst ∨ ∃ x ∈ xs, key x = some v
  | [], m => by simp [dictFoldBy]
  | x :: rest, m => by
      cases hk : key x with
      | none =>
          simp only [dictFoldBy, hk]
          rw [mem_keys_dictFoldBy key v rest m]
          constructor
          · rintro (h | h)
            · exact Or.inl h
            · exact Or.inr (by
                obtain ⟨y, hy, hky⟩ := h
                exact ⟨y, List.mem_cons_of_mem x hy, hky⟩)
          · rintro (h | ⟨y, hy, hky⟩)
            · exact Or.inl h
            · rcases List.mem_cons.mp hy with rfl | hy'
              · rw [hk] at hky; exact absurd hky (by simp)
              · exact Or.inr ⟨y, hy', hky⟩
      | some k =>
          simp only [dictFoldBy, hk]
          rw [mem_keys_dictFoldBy key v rest (dictInsert m k x), mem_keys_dictInsert]
          constructor
          · rintro ((h | rfl) | h)
            · exact Or.inl h
            · exact Or.inr ⟨x, List.mem_cons_self x rest, hk⟩
            · obtain ⟨y, hy, hky⟩ := h
              exact Or.inr ⟨y, List.mem_cons_of_mem x hy, hky⟩
          · rintro (h | ⟨y, hy, hky⟩)
            · exact Or.inl (Or.inl h)
            · rcases List.mem_cons.mp hy with rfl | hy'
              · rw [hk] at hky
                exact Or.inl (Or.inr (Option.some.inj hky).symm)
              · exact Or.inr ⟨y, hy', hky⟩

theorem nodup_keys_dictFoldBy {α : Type} (key : α → Option Nat) :
    ∀ (xs : List α) (m : List (Nat × α)),
      (m.map Prod.fst).Nodup → ((dictFoldBy key m xs).map Prod.fst).Nodup
  | [], _, h => h
  | x :: rest, m, h => by
      cases hk : key x with
      | none => simpa only [dictFoldBy, hk] using nodup_keys_dictFoldBy key rest m h
      | some k =>
          simpa only [dictFoldBy, hk] using
            nodup_keys_dictFoldBy key rest (dictInsert m k x) (dictInsert_keys_nodup m k x h)

/-- `_FrameCollection.page_map`: the dict comprehension
`{frame.page_number: frame for frame in self.frames}` — a later frame
overwrites an earlier one at the same page number. -/
def pageMap (frames : List Frame) : List (Nat × Frame) :=
  frames.foldl (fun m f => dictInsert m f.header.page_number f) []

/-- `page in collection` (`_FrameCollection.__contains__`). -/
def fcContains (frames : List Frame) (page : Nat) : Bool :=
  (dictLookup page (pageMap frames)).isSome

/-- `collection[page]` (`_FrameCollection.__getitem__`); `none` models the
`KeyError` a missing page raises. -/
def fcGetItem (frames : List Frame) (page : Nat) : Option Frame :=
  dictLookup page (pageMap frames)

/-- `collection.get(page, default)` (`_FrameCollection.get`); a found frame
is tagged `some` so that it shares a type with the default (`None` ↦ `none`). -/
def fcGet (frames : List Frame) (page : Nat) (d : Option Frame) : Option Frame :=
  match dictLookup page (pageMap frames) with
  | some f => some f
  | none => d

theorem pageMap_eq_dictFoldBy :
    ∀ (fs : List Frame) (m : List (Nat × Frame)),
      fs.foldl (fun m f => dictInsert m f.header.page_number f) m =
        dictFoldBy (fun f => some f.header.page_number) m fs
  | [], _ => rfl
  | f :: rest, m => pageMap_eq_dictFoldBy rest (dictInsert m f.header.page_number f)

theorem fcGetItem_eq_getLast (fs : List Frame) (page : Nat) :
    fcGetItem fs page = (fs.filter (fun f => f.header.page_number = page)).getLast? := by
  rw [fcGetItem, pageMap, pageMap_eq_dictFoldBy,
    dictLookup_dictFoldBy (fun f => some f.header.page_number) page fs []]
  have hlk : dictLookup page ([] : List (Nat × Frame)) = none := rfl
  rw [hlk, Option.or_none, lastWithKey]
  congr 1
  apply List.filter_congr
  intro f _
  simp

/-- **C10**.  Page-number lookup on a `_FrameCollection` (hence on every
`Commit` and `Checkpoint`): membership holds exactly for page numbers carried
by some frame; indexing returns the frame for that page occurring latest in
the frame list (`none` — `KeyError` — when absent); `get` returns that frame,
or the supplied default when absent. -/
theorem frame_collection_lookup (fs : List Frame) (page : Nat) :
    (fcContains fs page = true ↔ ∃ f ∈ fs, f.header.page_number = page) ∧
      fcGetItem fs page = (fs.filter (fun f => f.header.page_number = page)).getLast? ∧
      (∀ d, fcGet fs page d =
        ((fs.filter (fun f => f.header.page_number = page)).getLast?).or d) := by
  have hgi := fcGetItem_eq_getLast fs page
  refine ⟨?_, hgi, ?_⟩
  · rw [fcContains]
    show (fcGetItem fs page).isSome = true ↔ _
    rw [hgi, Option.isSome_iff_ne_none]
    constructor
    · intro h
      have hne : fs.filter (fun f => f.header.page_number = page) ≠ [] := by
        intro hc
        exact h (by rw [hc]; rfl)
      obtain ⟨f, hf⟩ := List.exists_mem_of_ne_nil _ hne
      have hf' := List.mem_filter.mp hf
      exact ⟨f, hf'.1, by simpa using hf'.2⟩
    · rintro ⟨f, hf, hpf⟩
      rw [Ne, List.getLast?_eq_none_iff, List.filter_eq_nil_iff]
      push_neg
      exact ⟨f, hf, by simpa using hpf⟩
  · intro d
    rw [fcGet]
    show (match fcGetItem fs page with
      | some f => some f
      | none => d) = _
    rw [hgi]
    cases (fs.filter (fun f => f.header.page_number = page)).getLast? <;> rfl

/-- The `salt1` of a commit's first frame (`commit.frames[0].header.salt1`),
or `none` for a commit with no frames. -/
def firstSalt (c : Commit) : Option Nat :=
  c.frames.head?.map (fun f => f.header.salt1)

/-- Loop body of `WAL.checkpoints`: `if not commit.frames: continue`, else
`checkpoints_map[commit.frames[0].header.salt1] = commit`. -/
def checkpointStep (m : List (Nat × Commit)) (c : Commit) : List (Nat × Commit) :=
  match c.frames with
  | [] => m
  | f :: _ => dictInsert m f.header.salt1 c

/-- `WAL.checkpoints` (wal.py lines 92-112): deduplicate the commits by the
`salt1` of their first frame — a later commit overwrites an earlier one —
then return `[checkpoints_map[salt] for salt in sorted(checkpoints_map.keys())]`. -/
def walCheckpoints (commits : List Commit) : List Commit :=
  let m := commits.foldl checkpointStep []
  (List.insertionSort (· ≤ ·) (m.map Prod.fst)).filterMap (fun salt => dictLookup salt m)

theorem checkpointFold_eq :
    ∀ (cs : List Commit) (m : List (Nat × Commit)),
      cs.foldl checkpointStep m = dictFoldBy firstSalt m cs
  | [], _ => rfl
  | c :: rest, m => by
      cases hc : c.frames with
      | nil =>
          have h1 : checkpointStep m c = m := by rw [checkpointStep, hc]
          have h2 : firstSalt c = none := by rw [firstSalt, hc]; rfl
          rw [List.foldl_cons, h1, checkpointFold_eq rest m]
          simp only [dictFoldBy, h2]
      | cons f tail =>
          have h1 : checkpointStep m c = dictInsert m f.header.salt1 c := by
            rw [checkpointStep, hc]
          have h2 : firstSalt c = some f.header.salt1 := by rw [firstSalt, hc]; rfl
          rw [List.foldl_cons, h1, checkpointFold_eq rest (dictInsert m f.header.salt1 c)]
          simp only [dictFoldBy, h2]

theorem dictLookup_checkpointFold (cs : List Commit) (v : Nat) :
    dictLookup v (cs.foldl checkpointStep []) =
      (cs.filter (fun c => firstSalt c = some v)).getLast? := by
  rw [checkpointFold_eq, dictLookup_dictFoldBy firstSalt v cs []]
  have hlk : dictLookup v ([] : List (Nat × Commit)) = none := rfl
  rw [hlk, Option.or_none, lastWithKey]

theorem checkpointFold_firstSalt (cs : List Commit) (v : Nat) (cp : Commit)
    (h : dictLookup v (cs.foldl checkpointStep []) = some cp) :
    firstSalt cp = some v := by
  rw [dictLookup_checkpointFold] at h
  have hm := List.mem_of_getLast?_eq_some h
  exact of_decide_eq_true (List.mem_filter.mp hm).2

theorem countP_filterMap_lookup (m : List (Nat × Commit))
    (hval : ∀ k cp, dictLookup k m = some cp → firstSalt cp = some k) (v : Nat) :
    ∀ ks : List Nat, ks.Nodup → (∀ k ∈ ks, (dictLookup k m).isSome = true) →
      (ks.filterMap (fun k => dictLookup k m)).countP
        (fun cp => firstSalt cp = some v) = if v ∈ ks then 1 else 0
  | [], _, _ => by simp
  | k :: rest, hnd, hsome => by
      obtain ⟨cp, hcp⟩ := Option.isSome_iff_exists.mp (hsome k (List.mem_cons_self k rest))
      have hstep : (k :: rest).filterMap (fun k => dictLookup k m) =
          cp :: rest.filterMap (fun k => dictLookup k m) :=
        List.filterMap_cons_some hcp
      have hs : firstSalt cp = some k := hval k cp hcp
      have hnd' := List.nodup_cons.mp hnd
      rw [hstep, List.countP_cons,
        countP_filterMap_lookup m hval v rest hnd'.2
          (fun k' hk' => hsome k' (List.mem_cons_of_mem k hk'))]
      by_cases hv : v = k
      · have hp : (decide (firstSalt cp = some v)) = true := by
          rw [hs, hv]; simp
        have hvr : v ∉ rest := fun hc => hnd'.1 (hv ▸ hc)
        have hvm : v ∈ k :: rest := by rw [hv]; exact List.mem_cons_self k rest
        rw [hp, if_neg hvr, if_pos hvm]
        simp
      · have hp : (decide (firstSalt cp = some v)) = false := by
          rw [hs]
          simp only [decide_eq_false_iff_not]
          intro hc
          exact hv (Option.some.inj hc).symm
        rw [hp]
        have hmem : (v ∈ k :: rest) ↔ (v ∈ rest) := by
          rw [List.mem_cons]
          exact ⟨fun h => h.resolve_left hv, Or.inr⟩
        by_cases hvr : v ∈ rest
        · rw [if_pos hvr, if_pos (hmem.mpr hvr)]
          simp
        · rw [if_neg hvr, if_neg (fun hc => hvr (hmem.mp hc))]
          simp

/-- **C3**.  `walCheckpoints` is strictly ascending in the `salt1` of the
first frame; it holds exactly one entry for each value `v` that occurs as
the first-frame `salt1` of some commit (so no two checkpoints share a
`salt1`), and that entry is the latest-in-file commit whose first frame has
`salt1 = v`. -/
theorem checkpoints_spec (commits : List Commit) :
    List.Pairwise (fun a b => (firstSalt a).getD 0 < (firstSalt b).getD 0)
        (walCheckpoints commits) ∧
      (∀ v : Nat, (walCheckpoints commits).countP (fun cp => firstSalt cp = some v) =
        if ∃ c ∈ commits, firstSalt c = some v then 1 else 0) ∧
      (∀ cp ∈ walCheckpoints commits, ∃ v, firstSalt cp = some v ∧
        (commits.filter (fun c => firstSalt c = some v)).getLast? = some cp) := by
  have hval : ∀ k cp,
      dictLookup k (commits.foldl checkpointStep []) = some cp → firstSalt cp = some k :=
    fun k cp h => checkpointFold_firstSalt commits k cp h
  have hwc : walCheckpoints commits =
      (List.insertionSort (· ≤ ·) ((commits.foldl checkpointStep []).map Prod.fst)).filterMap
        (fun salt => dictLookup salt (commits.foldl checkpointStep [])) := rfl
  have hperm := List.perm_insertionSort (· ≤ ·)
    ((commits.foldl checkpointStep []).map Prod.fst)
  have hnodup_keys : ((commits.foldl checkpointStep []).map Prod.fst).Nodup := by
    rw [checkpointFold_eq]
    exact nodup_keys_dictFoldBy firstSalt commits [] (by simp)
  have hnodup := hperm.nodup_iff.mpr hnodup_keys
  have hsorted := List.sorted_insertionSort (· ≤ ·)
    ((commits.foldl checkpointStep []).map Prod.fst)
  have hlt : List.Pairwise (· < ·)
      (List.insertionSort (· ≤ ·) ((commits.foldl checkpointStep []).map Prod.fst)) :=
    (hsorted.and hnodup).imp (fun h => lt_of_le_of_ne h.1 h.2)
  have hsome : ∀ k ∈ List.insertionSort (· ≤ ·)
      ((commits.foldl checkpointStep []).map Prod.fst),
      (dictLookup k (commits.foldl checkpointStep [])).isSome = true := by
    intro k hk
    exact (dictLookup_isSome k _).mpr (hperm.mem_iff.mp hk)
  refine ⟨?_, ?_, ?_⟩
  · rw [hwc]
    refine List.pairwise_filterMap.mpr (hlt.imp ?_)
    intro a b hab cp hcp cp' hcp'
    have h1 : firstSalt cp = some a := hval a cp hcp
    have h2 : firstSalt cp' = some b := hval b cp' hcp'
    rw [h1, h2]
    simpa using hab
  · intro v
    rw [hwc, countP_filterMap_lookup (commits.foldl checkpointStep []) hval v _ hnodup hsome]
    have hmemiff : v ∈ List.insertionSort (· ≤ ·)
        ((commits.foldl checkpointStep []).map Prod.fst) ↔
        ∃ c ∈ commits, firstSalt c = some v := by
      rw [hperm.mem_iff, checkpointFold_eq, mem_keys_dictFoldBy firstSalt v commits []]
      simp
    by_cases hex : ∃ c ∈ commits, firstSalt c = some v
    · rw [if_pos (hmemiff.mpr hex), if_pos hex]
    · rw [if_neg (fun hc => hex (hmemiff.mp hc)), if_neg hex]
  · intro cp hcp
    rw [hwc] at hcp
    obtain ⟨k, _, hlook⟩ := List.mem_filterMap.mp hcp
    refine ⟨k, hval k cp hlook, ?_⟩
    rw [← dictLookup_checkpointFold]
    exact hlook

/-- Modelled from the spec: the error kinds of §7 of the spec (the exception
module is not among the sources).  `wal.py` imports `InvalidDatabase` and
raises it for a bad WAL magic; `eof` stands for Python's built-in `EOFError`
raised by the struct parser on a short read. -/
inductive WALError where
  | invalidDatabase : String → WALError
  | invalidWAL : String → WALError
  | eof : String → WALError
deriving DecidableEq, Repr

/-- Modelled from the spec: the 32-byte WAL header parsed by
`c_sqlite3.wal_header` — eight unsigned 32-bit fields, always stored
big-endian on disk regardless of the checksum byte order. -/
structure WALHeader where
  magic : Nat
  format_version : Nat
  page_size : Nat
  checkpoint_seq : Nat
  salt1 : Nat
  salt2 : Nat
  checksum1 : Nat
  checksum2 : Nat
deriving DecidableEq, Repr

/-- Big-endian u32 at byte offset `off` of the image. -/
def readU32BE (img : List Nat) (off : Nat) : Nat :=
  beU32 (img.getD off 0) (img.getD (off + 1) 0) (img.getD (off + 2) 0) (img.getD (off + 3) 0)

/-- Modelled from the spec: `c_sqlite3.wal_header(fh)` parses the 32 header
bytes from the start of the image; cstruct raises `EOFError` (here `none`)
when fewer than 32 bytes are available. -/
def parseWALHeader (img : List Nat) : Option WALHeader :=
  if 32 ≤ img.length then
    some { magic := readU32BE img 0, format_version := readU32BE img 4,
           page_size := readU32BE img 8, checkpoint_seq := readU32BE img 12,
           salt1 := readU32BE img 16, salt2 := readU32BE img 20,
           checksum1 := readU32BE img 24, checksum2 := readU32BE img 28 }
  else none

/-- Modelled from the spec: `c_sqlite3.wal_frame(fh)` parses the 24 frame
header bytes at `off`; `EOFError` (`none`) when fewer than 24 bytes remain. -/
def parseFrameHeader (img : List Nat) (off : Nat) : Option FrameHeader :=
  if off + 24 ≤ img.length then
    some { page_number := readU32BE img off, page_count := readU32BE img (off + 4),
           salt1 := readU32BE img (off + 8), salt2 := readU32BE img (off + 12),
           checksum1 := readU32BE img (off + 16), checksum2 := readU32BE img (off + 20) }
  else none

def WAL_HEADER_MAGIC_LE : Nat := 0x377F0682

def WAL_HEADER_MAGIC_BE : Nat := 0x377F0683

/-- The state of a `WAL` object after `WAL.__init__`: the byte image, the
parsed header, and the byte order selected for the checksum algorithm. -/
structure WAL where
  img : List Nat
  header : WALHeader
  checksum_endian : Endian
deriving DecidableEq, Repr

/-- `WAL.__init__` (wal.py lines 26-43; the fh/path ownership part is
modelled separately by `WALHandle`): parse the WAL header (`EOFError` on a
short image), raise `InvalidDatabase("Invalid WAL header magic")` when the
magic is outside `WAL_HEADER_MAGIC`, and set
`checksum_endian = "<" if magic == WAL_HEADER_MAGIC_LE else ">"`. -/
def walInit (img : List Nat) : Except WALError WAL :=
  match parseWALHeader img with
  | none => .error (.eof "wal header")
  | some h =>
      if h.magic = WAL_HEADER_MAGIC_LE ∨ h.magic = WAL_HEADER_MAGIC_BE then
        .ok { img := img, header := h,
              checksum_endian := if h.magic = WAL_HEADER_MAGIC_LE then .le else .be }
      else .error (.invalidDatabase "Invalid WAL header magic")

/-- **C6** (amended).  Constructing a WAL from an image whose header magic is
neither `0x377F0682` nor `0x377F0683` fails with the `InvalidDatabase`
error kind (wal.py line 39 raises `InvalidDatabase`, not `InvalidWAL`). -/
theorem walInit_bad_magic (img : List Nat) (h : WALHeader)
    (hp : parseWALHeader img = some h)
    (hm1 : h.magic ≠ WAL_HEADER_MAGIC_LE) (hm2 : h.magic ≠ WAL_HEADER_MAGIC_BE) :
    walInit img = .error (WALError.invalidDatabase "Invalid WAL header magic") := by
  simp only [walInit, hp]
  rw [if_neg (fun hc => hc.elim hm1 hm2)]

/-- **C6** counterexample.  On the all-zero 32-byte image (magic `0`,
invalid) construction fails with `InvalidDatabase`, which is a different
error kind from `InvalidWAL` — the claim names the wrong kind. -/
theorem walInit_zero_magic_raises_InvalidDatabase :
    walInit (List.replicate 32 0) =
        .error (WALError.invalidDatabase "Invalid WAL header magic") ∧
      ∀ s : String, WALError.invalidDatabase "Invalid WAL header magic" ≠
        WALError.invalidWAL s := by
  constructor
  · rfl
  · intro s h
    exact WALError.noConfusion h

/-- **C6** witness: the amended theorem applied to the all-zero 32-byte
image. -/
theorem walInit_bad_magic_witness :
    walInit (List.replicate 32 0) =
      .error (WALError.invalidDatabase "Invalid WAL header magic") :=
  walInit_bad_magic (List.replicate 32 0)
    { magic := 0, format_version := 0, page_size := 0, checkpoint_seq := 0,
      salt1 := 0, salt2 := 0, checksum1 := 0, checksum2 := 0 }
    (by rfl) (by decide) (by decide)

/-- **C7**.  For a successfully constructed WAL, the checksum byte order is
little-endian exactly when the header magic is `0x377F0682` and big-endian
exactly when it is `0x377F0683`; the header fields themselves come from
`parseWALHeader`, the fixed big-endian parse that does not depend on
`checksum_endian`. -/
theorem checksum_endian_spec (img : List Nat) (w : WAL) (h : walInit img = .ok w) :
    (w.checksum_endian = .le ↔ w.header.magic = WAL_HEADER_MAGIC_LE) ∧
      (w.checksum_endian = .be ↔ w.header.magic = WAL_HEADER_MAGIC_BE) ∧
      parseWALHeader img = some w.header := by
  cases hp : parseWALHeader img with
  | none =>
      rw [walInit] at h
      rw [hp] at h
      exact absurd h (by simp)
  | some hd =>
      simp only [walInit, hp] at h
      by_cases hin : hd.magic = WAL_HEADER_MAGIC_LE ∨ hd.magic = WAL_HEADER_MAGIC_BE
      · rw [if_pos hin] at h
        have hw := (Except.ok.inj h).symm
        subst hw
        rcases hin with hle | hbe
        · rw [if_pos hle]
          refine ⟨iff_of_true rfl hle, iff_of_false (by simp) ?_, rfl⟩
          rw [hle]
          decide
        · by_cases hle : hd.magic = WAL_HEADER_MAGIC_LE
          · rw [hle] at hbe
            exact absurd hbe (by decide)
          · rw [if_neg hle]
            exact ⟨iff_of_false (by simp) hle, iff_of_true rfl hbe, rfl⟩
      · rw [if_neg hin] at h
        exact absurd h (by simp)

/-- Concrete 32-byte image with the little-endian checksum magic
`0x377F0682` and all other header fields zero. -/
def wal7img : List Nat := [0x37, 0x7F, 0x06, 0x82] ++ List.replicate 28 0

/-- The WAL that `walInit` builds from `wal7img`. -/
def wal7 : WAL :=
  { img := wal7img,
    header := { magic := 0x377F0682, format_version := 0, page_size := 0,
                checkpoint_seq := 0, salt1 := 0, salt2 := 0,
                checksum1 := 0, checksum2 := 0 },
    checksum_endian := .le }

/-- **C7** witness: the theorem applied to the concrete LE-magic image. -/
theorem checksum_endian_spec_witness :
    (wal7.checksum_endian = .le ↔ wal7.header.magic = WAL_HEADER_MAGIC_LE) ∧
      (wal7.checksum_endian = .be ↔ wal7.header.magic = WAL_HEADER_MAGIC_BE) ∧
      parseWALHeader wal7img = some wal7.header :=
  checksum_endian_spec wal7img wal7 (by rfl)

/-- The fh/path ownership state of a `WAL`: `fromPath` records whether
`WAL.__init__` received a `Path` (and so opened the file handle itself),
`fhClosed` whether the underlying handle has been closed.  Construction
leaves the handle open. -/
structure WALHandle where
  fromPath : Bool
  fhClosed : Bool
deriving DecidableEq, Repr

/-- The handle state right after `WAL.__init__`. -/
def walHandleInit (fromPath : Bool) : WALHandle :=
  { fromPath := fromPath, fhClosed := false }

/-- `WAL.close` (wal.py lines 45-49): `if self.path is not None:
self.fh.close()` — closing an already-closed Python file object is a no-op. -/
def walClose (h : WALHandle) : WALHandle :=
  if h.fromPath then { h with fhClosed := true } else h

/-- **C9**.  `close` closes the underlying handle exactly when the WAL was
constructed from a filesystem path; a WAL over a borrowed binary source is
left untouched by `close`; and a second `close` has the same effect as the
first. -/
theorem close_spec :
    (∀ p : Bool, (walClose (walHandleInit p)).fhClosed = p) ∧
      walClose (walHandleInit false) = walHandleInit false ∧
      ∀ h : WALHandle, walClose (walClose h) = walClose h := by
  refine ⟨?_, rfl, ?_⟩
  · intro p
    cases p <;> rfl
  · intro h
    by_cases hp : h.fromPath <;> simp [walClose, hp]

/-- The byte offset of frame `idx`:
`len(wal_header) + frame_idx * (len(wal_frame) + page_size)` from
`WAL.frame` (wal.py lines 51-54). -/
def frameOffset (w : WAL) (idx : Nat) : Nat :=
  32 + idx * (24 + w.header.page_size)

/-- `WAL.frame(frame_idx)`: build the frame at index `frame_idx`.
`Frame.__init__` (wal.py lines 116-123) seeks to the offset and parses only
the 24-byte frame header — the page data is read lazily by `Frame.data` and
is not validated here.  `none` is the `EOFError` from an incomplete header.
The `lru_cache` wrapper only memoises and is dropped. -/
def walFrame (w : WAL) (idx : Nat) : Option Frame :=
  (parseFrameHeader w.img (frameOffset w idx)).map
    (fun h => { offset := frameOffset w idx, header := h })

/-- The loop of `WAL.frames()` from byte offset `off`: yield a frame and
advance by one frame size until a frame header is incomplete (`EOFError`),
which ends the iteration silently. -/
def framesLoop (w : WAL) (off : Nat) : List Frame :=
  match hp : parseFrameHeader w.img off with
  | none => []
  | some h =>
      { offset := off, header := h } :: framesLoop w (off + (24 + w.header.page_size))
termination_by w.img.length - off
decreasing_by
  have hle : off + 24 ≤ w.img.length := by
    by_contra hc
    rw [parseFrameHeader, if_neg hc] at hp
    exact Option.noConfusion hp
  omega

/-- `WAL.frames()`: frames starting right after the 32-byte WAL header. -/
def walFrames (w : WAL) : List Frame :=
  framesLoop w 32

theorem parseFrameHeader_mono_none (img : List Nat) (off off' : Nat)
    (hle : off ≤ off') (h : parseFrameHeader img off = none) :
    parseFrameHeader img off' = none := by
  rw [parseFrameHeader] at h ⊢
  by_cases hc : off + 24 ≤ img.length
  · rw [if_pos hc] at h
    exact Option.noConfusion h
  · rw [if_neg (fun hc' => hc (by omega))]

theorem framesLoop_get (w : WAL) :
    ∀ (i off : Nat),
      (framesLoop w off)[i]? =
        (parseFrameHeader w.img (off + i * (24 + w.header.page_size))).map
          (fun h => { offset := off + i * (24 + w.header.page_size), header := h })
  | 0, off => by
      rw [framesLoop]
      cases hp : parseFrameHeader w.img off with
      | none => simp [hp]
      | some h => simp [hp]
  | i + 1, off => by
      rw [framesLoop]
      cases hp : parseFrameHeader w.img off with
      | none =>
          have hmono := parseFrameHeader_mono_none w.img off
            (off + (i + 1) * (24 + w.header.page_size)) (by omega) hp
          simp [hmono]
      | some h =>
          have hoff : off + (24 + w.header.page_size) + i * (24 + w.header.page_size) =
              off + (i + 1) * (24 + w.header.page_size) := by ring
          simp only [List.getElem?_cons_succ]
          rw [framesLoop_get w i (off + (24 + w.header.page_size)), hoff]

/-- **C5** (amended).  `frames()` yields consecutive frames starting right
after the 32-byte WAL header: position `i` of the returned sequence holds
exactly the frame whose 24-byte header parses at offset
`32 + i * (24 + page_size)`, and the iteration ends silently at the first
index whose frame *header* is incomplete.  Completeness of the `page_size`
bytes of page data is not checked (see the counterexample: a frame whose
header is complete but whose page data is cut off is still yielded). -/
theorem frames_spec (w : WAL) :
    (∀ i : Nat, (walFrames w)[i]? = walFrame w i) ∧
      ∀ i : Nat, w.img.length < 32 + i * (24 + w.header.page_size) + 24 →
        (walFrames w)[i]? = none := by
  constructor
  · intro i
    rw [walFrames, framesLoop_get w i 32, walFrame, frameOffset]
  · intro i hlen
    rw [walFrames, framesLoop_get w i 32]
    rw [parseFrameHeader, if_neg (by omega)]
    rfl

/-- A 56-byte WAL image: a valid big-endian-magic header declaring
`page_size = 8`, followed by one complete 24-byte frame header and *no* page
data at all. -/
def wal5img : List Nat :=
  [0x37, 0x7F, 0x06, 0x83] ++ [0, 0, 0, 0] ++ [0, 0, 0, 8] ++ List.replicate 20 0 ++
    List.replicate 24 0

/-- The WAL that `walInit` builds from `wal5img`. -/
def wal5 : WAL :=
  { img := wal5img,
    header := { magic := 0x377F0683, format_version := 0, page_size := 8,
                checkpoint_seq := 0, salt1 := 0, salt2 := 0,
                checksum1 := 0, checksum2 := 0 },
    checksum_endian := .be }

/-- **C5** witness: the positive part evaluated at index 0 of a concrete
WAL, and the termination part applied at index 1, where the second frame
header would overrun the 56-byte image. -/
theorem frames_spec_witness :
    (walFrames wal5)[0]? = walFrame wal5 0 ∧ (walFrames wal5)[1]? = none :=
  ⟨(frames_spec wal5).1 0, (frames_spec wal5).2 1 (by decide)⟩

/-- **C5** counterexample.  In `wal5img` the first frame's 24-byte header is
complete but all 8 of its page-data bytes are missing, yet `frames()` still
yields that frame: iteration does *not* terminate at a frame with incomplete
page data, only at an incomplete frame header. -/
theorem frames_yields_frame_with_incomplete_page :
    walInit wal5img = .ok wal5 ∧
      (walFrames wal5)[0]? =
        some { offset := 32,
               header := { page_number := 0, page_count := 0, salt1 := 0, salt2 := 0,
                           checksum1 := 0, checksum2 := 0 } } ∧
      wal5.img.length < 32 + 0 * (24 + wal5.header.page_size) + 24 + wal5.header.page_size := by
  refine ⟨by rfl, ?_, by decide⟩
  rw [walFrames, framesLoop_get wal5 0 32]
  rfl

/-- The loop of `WAL.commits` (wal.py lines 75-90): append each frame to a
buffer and emit a `Commit` of the buffer — then reset it — whenever the
frame has `page_count > 0`.  Returns the emitted commits and the leftover
buffer (the trailing frames after the last commit, which are only logged). -/
def commitsLoop : List Frame → List Frame → List Commit → List Commit × List Frame
  | [], buf, acc => (acc, buf)
  | f :: rest, buf, acc =>
      if f.header.page_count > 0 then commitsLoop rest [] (acc ++ [⟨buf ++ [f]⟩])
      else commitsLoop rest (buf ++ [f]) acc

/-- `WAL.commits` as a function of the frame list: the emitted commits; the
leftover frames are dropped with a log warning. -/
def walCommits (fs : List Frame) : List Commit :=
  (commitsLoop fs [] []).1

/-- The concatenation of the frame lists of a list of commits. -/
def commitFramesJoin (cs : List Commit) : List Frame :=
  (cs.map Commit.frames).flatten

theorem commitsLoop_spec :
    ∀ (fs buf : List Frame) (acc : List Commit),
      (∀ f ∈ buf, f.header.page_count = 0) →
      ∃ newcs rest,
        commitsLoop fs buf acc = (acc ++ newcs, rest) ∧
        buf ++ fs = commitFramesJoin newcs ++ rest ∧
        (∀ f ∈ rest, f.header.page_count = 0) ∧
        (∀ c ∈ newcs, ∃ body last, c.frames = body ++ [last] ∧
          last.header.page_count > 0 ∧ ∀ f ∈ body, f.header.page_count = 0)
  | [], buf, acc, hbuf => by
      refine ⟨[], buf, ?_, ?_, hbuf, ?_⟩
      · simp [commitsLoop]
      · simp [commitFramesJoin]
      · intro c hc
        simp at hc
  | f :: rest, buf, acc, hbuf => by
      by_cases hf : f.header.page_count > 0
      · obtain ⟨newcs, rest₀, hloop, hjoin, hrest, hshape⟩ :=
          commitsLoop_spec rest [] (acc ++ [⟨buf ++ [f]⟩]) (by intro g hg; simp at hg)
        refine ⟨⟨buf ++ [f]⟩ :: newcs, rest₀, ?_, ?_, hrest, ?_⟩
        · rw [commitsLoop, if_pos hf, hloop, List.append_assoc]
          rfl
        · have hcf : commitFramesJoin (Commit.mk (buf ++ [f]) :: newcs) =
              (buf ++ [f]) ++ commitFramesJoin newcs := by
            simp [commitFramesJoin]
          rw [hcf, List.append_assoc, ← hjoin]
          simp
        · intro c hc
          rcases List.mem_cons.mp hc with rfl | hc'
          · exact ⟨buf, f, rfl, hf, hbuf⟩
          · exact hshape c hc'
      · have hf0 : f.header.page_count = 0 := by omega
        have hbuf' : ∀ g ∈ buf ++ [f], g.header.page_count = 0 := by
          intro g hg
          rcases List.mem_append.mp hg with hg' | hg'
          · exact hbuf g hg'
          · rw [List.mem_singleton.mp hg']
            exact hf0
        obtain ⟨newcs, rest₀, hloop, hjoin, hrest, hshape⟩ :=
          commitsLoop_spec rest (buf ++ [f]) acc hbuf'
        refine ⟨newcs, rest₀, ?_, ?_, hrest, hshape⟩
        · rw [commitsLoop, if_neg hf]
          exact hloop
        · rw [← hjoin]
          simp

/-- **C4**.  `commits()` partitions the prefix of the frame sequence ending
at the last committing frame into consecutive groups: the frame list is the
emitted commits' frames followed by a (dropped) remainder of frames with
`page_count = 0`, and every commit consists of zero or more frames with
`page_count = 0` followed by exactly one final frame with `page_count > 0`. -/
theorem commits_partition (w : WAL) :
    ∃ rest, walFrames w = commitFramesJoin (walCommits (walFrames w)) ++ rest ∧
      (∀ f ∈ rest, f.header.page_count = 0) ∧
      (∀ c ∈ walCommits (walFrames w), ∃ body last, c.frames = body ++ [last] ∧
        last.header.page_count > 0 ∧ ∀ f ∈ body, f.header.page_count = 0) := by
  obtain ⟨newcs, rest, hloop, hjoin, hrest, hshape⟩ :=
    commitsLoop_spec (walFrames w) [] [] (by intro g hg; simp at hg)
  have hcs : walCommits (walFrames w) = newcs := by
    rw [walCommits, hloop]
    simp
  refine ⟨rest, ?_, hrest, ?_⟩
  · rw [hcs, ← hjoin]
    simp
  · rw [hcs]
    exact hshape

/-- The four big-endian bytes of a 32-bit value. -/
def u32BEBytes (x : Nat) : List Nat :=
  [x / 2 ^ 24 % 256, x / 2 ^ 16 % 256, x / 2 ^ 8 % 256, x % 256]

/-- Modelled from the spec: `self.wal.header.dumps()` — re-serialize the
parsed WAL header to its 32 on-disk bytes, all eight fields big-endian. -/
def walHeaderDumps (h : WALHeader) : List Nat :=
  u32BEBytes h.magic ++ u32BEBytes h.format_version ++ u32BEBytes h.page_size ++
    u32BEBytes h.checkpoint_seq ++ u32BEBytes h.salt1 ++ u32BEBytes h.salt2 ++
    u32BEBytes h.checksum1 ++ u32BEBytes h.checksum2

theorem walHeaderDumps_length (h : WALHeader) : (walHeaderDumps h).length = 32 := by
  simp [walHeaderDumps, u32BEBytes]

/-- `fh.seek(off); fh.read(n)` followed by the code's `len(...) < n` check:
`none` models the `EOFError` the code raises on a short read. -/
def bytesAt (img : List Nat) (off n : Nat) : Option (List Nat) :=
  if off + n ≤ img.length then some ((img.drop off).take n) else none

theorem bytesAt_length (img : List Nat) (off n : Nat) (b : List Nat)
    (h : bytesAt img off n = some b) : b.length = n := by
  rw [bytesAt] at h
  by_cases hc : off + n ≤ img.length
  · rw [if_pos hc] at h
    have hb := (Option.some.inj h).symm
    subst hb
    simp [List.length_take, List.length_drop]
    omega
  · rw [if_neg hc] at h
    exact Option.noConfusion h

theorem calculate_checksum_total (e : Endian) (buf : List Nat) (s : Nat × Nat)
    (h : buf.length % 8 = 0) : ∃ r, calculate_checksum e buf s = some r := by
  obtain ⟨arr, harr, hlen, _⟩ := u32sOfBytes_length_mod e buf (by omega)
  refine ⟨specPairIter arr s, ?_⟩
  rw [calculate_checksum, harr]
  have heven : arr.length % 2 = 0 := by rw [hlen]; omega
  exact checksumRounds_even arr heven s.1 s.2

/-- The frame loop of `Frame.validate_checksum` (wal.py lines 181-209):
`while offset <= self.offset`, read the 24 frame-header bytes, feed their
first 8 bytes into the running seed, read and feed the `page_size` page
bytes, advance one frame, and set `checksum_match` to whether the running
seed now equals the target frame's stored pair.  The loop's final
`checksum_match` is returned; `none` models a raised exception (`EOFError`
on a short read, `IndexError` inside the checksum). -/
def validateLoop (w : WAL) (stored : Nat × Nat) (target offset : Nat)
    (seed : Nat × Nat) (checksum_match : Bool) : Option Bool :=
  if offset ≤ target then
    match bytesAt w.img offset 24 with
    | none => none
    | some fhBytes =>
        match calculate_checksum w.checksum_endian (fhBytes.take 8) seed with
        | none => none
        | some seed1 =>
            match bytesAt w.img (offset + 24) w.header.page_size with
            | none => none
            | some page =>
                match calculate_checksum w.checksum_endian page seed1 with
                | none => none
                | some seed2 =>
                    validateLoop w stored target (offset + (24 + w.header.page_size))
                      seed2 (decide (seed2 = stored))
  else some checksum_match
termination_by target + 1 - offset
decreasing_by omega

/-- `Frame.validate_checksum` (wal.py lines 154-218) with the `self` slip in
`calculate_checksum` repaired, per the method's own docstring and the spec's
§9 correction note, so that `buf` receives the byte buffer: seed `(0, 0)`
with the first 24 bytes of `header.dumps()` (after the dead `< 32` length
check), then run the frame loop from the first frame offset (32) up to and
including this frame's offset, comparing against this frame's stored
`(checksum1, checksum2)`.  The call as actually written is modelled by
`calculate_checksum_boundCall` below. -/
def validate_checksum (w : WAL) (f : Frame) : Option Bool :=
  if (walHeaderDumps w.header).length < 32 then none
  else
    match calculate_checksum w.checksum_endian ((walHeaderDumps w.header).take 24) (0, 0) with
    | none => none
    | some seed =>
        validateLoop w (f.header.checksum1, f.header.checksum2) f.offset 32 seed false

/-- The spec's per-frame feeding step for frame `j`: its first 8 header
bytes, then its full `page_size` bytes of page data. -/
def specFeedFrame (w : WAL) (j : Nat) (s : Nat × Nat) : Option (Nat × Nat) :=
  match bytesAt w.img (frameOffset w j) 24 with
  | none => none
  | some fhBytes =>
      match calculate_checksum w.checksum_endian (fhBytes.take 8) s with
      | none => none
      | some s1 =>
          match bytesAt w.img (frameOffset w j + 24) w.header.page_size with
          | none => none
          | some page => calculate_checksum w.checksum_endian page s1

/-- Feed frames `j, j+1, …, j+n-1` into the running checksum. -/
def specFeedFrames (w : WAL) : Nat → Nat → Nat × Nat → Option (Nat × Nat)
  | _, 0, s => some s
  | j, n + 1, s =>
      match specFeedFrame w j s with
      | none => none
      | some s' => specFeedFrames w (j + 1) n s'

/-- The running checksum exactly as the claim words it: seeded at `(0, 0)`,
fed the first 24 bytes of the WAL header, then fed frames `0 … count-1`
(first 8 header bytes, then the page data, each). -/
def specRunningChecksum (w : WAL) (count : Nat) : Option (Nat × Nat) :=
  match calculate_checksum w.checksum_endian ((walHeaderDumps w.header).take 24) (0, 0) with
  | none => none
  | some s => specFeedFrames w 0 count s

theorem frameOffset_succ (w : WAL) (j : Nat) :
    frameOffset w j + (24 + w.header.page_size) = frameOffset w (j + 1) := by
  rw [frameOffset, frameOffset]
  ring

theorem frameOffset_le (w : WAL) {j i : Nat} (h : j ≤ i) :
    frameOffset w j ≤ frameOffset w i := by
  rw [frameOffset, frameOffset]
  have := Nat.mul_le_mul_right (24 + w.header.page_size) h
  omega

theorem frameOffset_lt (w : WAL) {i j : Nat} (h : i < j) :
    frameOffset w i < frameOffset w j := by
  rw [frameOffset, frameOffset]
  have h1 : i + 1 ≤ j := h
  have := Nat.mul_le_mul_right (24 + w.header.page_size) h1
  have h2 : i * (24 + w.header.page_size) + 24 ≤ (i + 1) * (24 + w.header.page_size) := by
    rw [Nat.succ_mul]
    omega
  omega

theorem validateLoop_eq_specFeed (w : WAL) (stored : Nat × Nat) (i : Nat) :
    ∀ (n j : Nat), j + n = i + 1 → 1 ≤ n → ∀ (s : Nat × Nat) (cm : Bool),
      validateLoop w stored (frameOffset w i) (frameOffset w j) s cm =
        (specFeedFrames w j n s).map (fun sf => decide (sf = stored))
  | 0, j, hj, hn, s, cm => by omega
  | n + 1, j, hj, _, s, cm => by
      have hji : j ≤ i := by omega
      rw [validateLoop, if_pos (frameOffset_le w hji)]
      rw [specFeedFrames, specFeedFrame]
      cases hb : bytesAt w.img (frameOffset w j) 24 with
      | none => rfl
      | some fhBytes =>
          dsimp only
          cases hc1 : calculate_checksum w.checksum_endian (fhBytes.take 8) s with
          | none => rfl
          | some seed1 =>
              dsimp only
              cases hb2 : bytesAt w.img (frameOffset w j + 24) w.header.page_size with
              | none => rfl
              | some page =>
                  dsimp only
                  cases hc2 : calculate_checksum w.checksum_endian page seed1 with
                  | none => rfl
                  | some seed2 =>
                      dsimp only
                      rw [frameOffset_succ]
                      cases n with
                      | zero =>
                          rw [validateLoop,
                            if_neg (Nat.not_le.mpr (frameOffset_lt w (by omega)))]
                          rfl
                      | succ n' =>
                          rw [validateLoop_eq_specFeed w stored i (n' + 1) (j + 1)
                            (by omega) (by omega) seed2 (decide (seed2 = stored))]

theorem specFeedFrames_total (w : WAL) (hps : w.header.page_size % 8 = 0) :
    ∀ (n j : Nat) (s : Nat × Nat), frameOffset w (j + n) ≤ w.img.length →
      ∃ sf, specFeedFrames w j n s = some sf
  | 0, _, s, _ => ⟨s, rfl⟩
  | n + 1, j, s, hlen => by
      have hcomplete : frameOffset w (j + 1) ≤ w.img.length := by
        have := frameOffset_le w (show j + 1 ≤ j + (n + 1) by omega)
        omega
      have hhdr : frameOffset w j + 24 ≤ w.img.length := by
        have := frameOffset_succ w j
        omega
      have hb : bytesAt w.img (frameOffset w j) 24 =
          some ((w.img.drop (frameOffset w j)).take 24) := by
        rw [bytesAt, if_pos hhdr]
      have hb2 : bytesAt w.img (frameOffset w j + 24) w.header.page_size =
          some ((w.img.drop (frameOffset w j + 24)).take w.header.page_size) := by
        rw [bytesAt, if_pos (by
          have := frameOffset_succ w j
          omega)]
      have hfh8 : (((w.img.drop (frameOffset w j)).take 24).take 8).length % 8 = 0 := by
        have hdl : (w.img.drop (frameOffset w j)).length = w.img.length - frameOffset w j :=
          List.length_drop _ _
        simp only [List.length_take, hdl]
        omega
      obtain ⟨s1, hs1⟩ := calculate_checksum_total w.checksum_endian
        (((w.img.drop (frameOffset w j)).take 24).take 8) s hfh8
      have hpage : ((w.img.drop (frameOffset w j + 24)).take w.header.page_size).length % 8
          = 0 := by
        have := bytesAt_length w.img (frameOffset w j + 24) w.header.page_size _ hb2
        rw [this]
        exact hps
      obtain ⟨s2, hs2⟩ := calculate_checksum_total w.checksum_endian
        ((w.img.drop (frameOffset w j + 24)).take w.header.page_size) s1 hpage
      obtain ⟨sf, hsf⟩ := specFeedFrames_total w hps n (j + 1) s2 (by
        have : j + 1 + n = j + (n + 1) := by omega
        rw [this]
        exact hlen)
      refine ⟨sf, ?_⟩
      rw [specFeedFrames, specFeedFrame, hb]
      dsimp only
      rw [hs1]
      dsimp only
      rw [hb2]
      dsimp only
      rw [hs2]
      dsimp only
      exact hsf

/-- A Python value appearing as `calculate_checksum`'s `seed` parameter.
`wal.py` declares `calculate_checksum(buf, seed=(0, 0), endian=">")` without
`self`, so the bound call `self.calculate_checksum(data, ...)` binds the
`Frame` object to `buf` and the byte string `data` to `seed`. -/
inductive PySeed where
  | pair : Nat × Nat → PySeed
  | bytes : List Nat → PySeed
deriving DecidableEq, Repr

/-- `s0, s1 = seed`: tuple unpacking succeeds for a pair, and for a byte
string only when its length is exactly 2 (each byte becoming one target);
any other length raises `ValueError`. -/
def pyUnpack2 : PySeed → Except String (Nat × Nat)
  | .pair s => .ok s
  | .bytes [x, y] => .ok (x, y)
  | .bytes _ => .error "ValueError: too many values to unpack (expected 2)"

/-- The body of `calculate_checksum` as Python executes the bound call
`self.calculate_checksum(data, endian=e)` (wal.py lines 178, 193, 201):
with `buf := self` (a `Frame`) and `seed := data` (bytes), line 226
`s0, s1 = seed` unpacks the byte string — `ValueError` for every buffer the
method passes (24, 8 or `page_size` bytes); were the unpacking ever to
succeed, `len(buf)` / `struct.unpack(..., buf)` on lines 227-228 would raise
`TypeError` because `buf` is a `Frame`, not a byte string. -/
def calculate_checksum_boundCall (self : Frame) (data : List Nat) (e : Endian) :
    Except String (Nat × Nat) :=
  match pyUnpack2 (.bytes data) with
  | .error msg => .error msg
  | .ok _ => .error "TypeError: a bytes-like object is required, not Frame"

/-- A 64-byte WAL image: big-endian-magic header declaring `page_size = 8`,
followed by one complete all-zero frame (24-byte header + 8 page bytes). -/
def wal1img : List Nat :=
  [0x37, 0x7F, 0x06, 0x83] ++ [0, 0, 0, 0] ++ [0, 0, 0, 8] ++ List.replicate 20 0 ++
    List.replicate 24 0 ++ List.replicate 8 0

/-- The WAL that `walInit` builds from `wal1img`. -/
def wal1 : WAL :=
  { img := wal1img,
    header := { magic := 0x377F0683, format_version := 0, page_size := 8,
                checkpoint_seq := 0, salt1 := 0, salt2 := 0,
                checksum1 := 0, checksum2 := 0 },
    checksum_endian := .be }

/-- Frame 0 of `wal1`, as `WAL.frame(0)` builds it. -/
def frame1 : Frame :=
  { offset := 32,
    header := { page_number := 0, page_count := 0, salt1 := 0, salt2 := 0,
                checksum1 := 0, checksum2 := 0 } }

/-- **C1** (code bug).  First conjunct: as written, `Frame.validate_checksum`
cannot return at all — its first checksum call
`self.calculate_checksum(wal_hdr_bytes[:24], endian=…)` is a bound call that
puts the 24 header bytes into `seed`, and `s0, s1 = seed` raises
`ValueError` (the function was declared without `self`; wal.py lines 178/220
and spec §9 note 2).  Second conjunct: with that slip repaired as the
method's docstring intends, the claim holds — `validate_checksum` returns
`True` iff the running checksum seeded at `(0, 0)`, fed the WAL header's
first 24 bytes and then frames `0 … i` (8 header bytes plus page data each),
equals the frame's stored `(checksum1, checksum2)`. -/
theorem validate_checksum_bug :
    (∀ (self : Frame) (data : List Nat) (e : Endian), 3 ≤ data.length →
      calculate_checksum_boundCall self data e =
        .error "ValueError: too many values to unpack (expected 2)") ∧
    ∀ (w : WAL) (i : Nat) (f : Frame),
      f.offset = frameOffset w i →
      frameOffset w i + 24 + w.header.page_size ≤ w.img.length →
      w.header.page_size % 8 = 0 →
      ∃ s, specRunningChecksum w (i + 1) = some s ∧
        (validate_checksum w f = some true ↔
          s = (f.header.checksum1, f.header.checksum2)) ∧
        (validate_checksum w f = some false ↔
          s ≠ (f.header.checksum1, f.header.checksum2)) := by
  constructor
  · intro self data e h
    rcases data with _ | ⟨a, rest1⟩
    · simp at h
    rcases rest1 with _ | ⟨b, rest2⟩
    · simp at h
    rcases rest2 with _ | ⟨c, rest3⟩
    · simp at h
    rfl
  · intro w i f hoff hlen hps
    have h24 : ((walHeaderDumps w.header).take 24).length % 8 = 0 := by
      rw [List.length_take, walHeaderDumps_length]
      rfl
    obtain ⟨s0, hs0⟩ := calculate_checksum_total w.checksum_endian
      ((walHeaderDumps w.header).take 24) (0, 0) h24
    obtain ⟨sf, hsf⟩ := specFeedFrames_total w hps (i + 1) 0 s0 (by
      have h1 : (0 : Nat) + (i + 1) = i + 1 := by omega
      rw [h1]
      have := frameOffset_succ w i
      omega)
    have hv : validate_checksum w f =
        some (decide (sf = (f.header.checksum1, f.header.checksum2))) := by
      rw [validate_checksum, if_neg (by rw [walHeaderDumps_length]; omega), hs0]
      dsimp only
      rw [hoff]
      have h32 : (32 : Nat) = frameOffset w 0 := by rw [frameOffset]; ring
      rw [h32, validateLoop_eq_specFeed w (f.header.checksum1, f.header.checksum2) i
        (i + 1) 0 (by omega) (by omega) s0 false, hsf]
      rfl
    refine ⟨sf, ?_, ?_, ?_⟩
    · rw [specRunningChecksum, hs0]
      dsimp only
      exact hsf
    · rw [hv]
      constructor
      · intro h
        exact of_decide_eq_true (Option.some.inj h)
      · intro h
        rw [decide_eq_true h]
    · rw [hv]
      constructor
      · intro h
        exact of_decide_eq_false (Option.some.inj h)
      · intro h
        rw [decide_eq_false h]

/-- **C1** witness: the bound-call failure at frame 0 of the concrete WAL
`wal1` with the 24-byte buffer actually passed, and the repaired-intent part
applied to `wal1`'s only frame. -/
theorem validate_checksum_bug_witness :
    (calculate_checksum_boundCall frame1 (List.replicate 24 0) .be =
      .error "ValueError: too many values to unpack (expected 2)") ∧
    ∃ s, specRunningChecksum wal1 (0 + 1) = some s ∧
      (validate_checksum wal1 frame1 = some true ↔
        s = (frame1.header.checksum1, frame1.header.checksum2)) ∧
      (validate_checksum wal1 frame1 = some false ↔
        s ≠ (frame1.header.checksum1, frame1.header.checksum2)) :=
  ⟨validate_checksum_bug.1 frame1 (List.replicate 24 0) .be (by decide),
   validate_checksum_bug.2 wal1 0 frame1 (by decide) (by decide) (by decide)⟩

/-- A one-frame commit with the given first-frame `salt1` and page number. -/
def cframe (salt pn : Nat) : Frame :=
  { offset := 0,
    header := { page_number := pn, page_count := 1, salt1 := salt, salt2 := 0,
                checksum1 := 0, checksum2 := 0 } }

/-- Three commits: `salt1` values 5, 3, 5 — the two salt-5 commits collide,
so checkpoints must keep the later one and sort `[3, 5]`. -/
def commits3 : List Commit :=
  [⟨[cframe 5 1]⟩, ⟨[cframe 3 2]⟩, ⟨[cframe 5 3]⟩]

/-- **C3** witness: the theorem applied to the concrete commit list
`commits3` with a duplicated `salt1`. -/
theorem checkpoints_spec_witness :
    List.Pairwise (fun a b => (firstSalt a).getD 0 < (firstSalt b).getD 0)
        (walCheckpoints commits3) ∧
      (∀ v : Nat, (walCheckpoints commits3).countP (fun cp => firstSalt cp = some v) =
        if ∃ c ∈ commits3, firstSalt c = some v then 1 else 0) ∧
      (∀ cp ∈ walCheckpoints commits3, ∃ v, firstSalt cp = some v ∧
        (commits3.filter (fun c => firstSalt c = some v)).getLast? = some cp) :=
  checkpoints_spec commits3

/-- **C4** witness: the theorem applied to the concrete WAL `wal1`, whose
single frame has `page_count = 0` and is therefore leftover. -/
theorem commits_partition_witness :
    ∃ rest, walFrames wal1 = commitFramesJoin (walCommits (walFrames wal1)) ++ rest ∧
      (∀ f ∈ rest, f.header.page_count = 0) ∧
      (∀ c ∈ walCommits (walFrames wal1), ∃ body last, c.frames = body ++ [last] ∧
        last.header.page_count > 0 ∧ ∀ f ∈ body, f.header.page_count = 0) :=
  commits_partition wal1

/-- **C10** witness: the lookup theorem applied to a concrete two-frame list
in which both frames carry page number 1. -/
theorem frame_collection_lookup_witness :
    (fcContains [cframe 5 1, cframe 3 1] 1 = true ↔
      ∃ f ∈ [cframe 5 1, cframe 3 1], f.header.page_number = 1) ∧
      fcGetItem [cframe 5 1, cframe 3 1] 1 =
        ([cframe 5 1, cframe 3 1].filter (fun f => f.header.page_number = 1)).getLast? ∧
      (∀ d, fcGet [cframe 5 1, cframe 3 1] 1 d =
        (([cframe 5 1, cframe 3 1].filter
          (fun f => f.header.page_number = 1)).getLast?).or d) :=
  frame_collection_lookup [cframe 5 1, cframe 3 1] 1

end WalPy
